import Mathlib

/-!
# Loan-calculator step definitions (`experian.step.js`)

A shallow embedding of the step definitions and of the `After` hook of
`src/feature/step-definition/experian/experian.step.js`.

JavaScript strings are modelled as `List Char`.  The library operations the
steps call (regular expressions, `Number`, `path.join`, Playwright selectors)
are modelled after their documented behaviour.  The name `expect` is taken
from `require('playwright')`, which does not export it: it is `undefined`,
and every call `expect(...)` throws a `TypeError`.
-/

namespace Experian

/-- JavaScript string: a sequence of characters. -/
abbrev Str := List Char

deriving instance DecidableEq for Except

/-! ## The names taken from `require('playwright')` -/

/-- Public names exported by the package `playwright`: the browser types
and the helpers around them.  The assertion function `expect` is exported
by `@playwright/test`, not by `playwright`. -/
def playwrightExports : List String :=
  ["chromium", "firefox", "webkit", "devices", "errors", "request", "selectors",
    "_android", "_electron"]

/-- A name destructured from `require('playwright')` holds a value when the
package exports it, and `undefined` otherwise. -/
def imported (name : String) : Bool :=
  playwrightExports.contains name

/-- The call `expect(...)`: calling `undefined` throws a `TypeError`. -/
def callExpect : Except String Unit :=
  if imported "expect" then .ok () else .error "TypeError: expect is not a function"

/-- `await expect(resultBox).toBeVisible(...)`; `visible` tells whether the
result element becomes visible within the timeout. -/
def toBeVisible (visible : Bool) : Except String Unit := do
  callExpect
  if visible then .ok () else .error "toBeVisible"

/-! ## Regular expressions -/

/-- Position of the matcher in the subject: the number of characters already
passed and the characters still ahead. -/
structure Pos where
  idx : Nat
  rest : List Char
  deriving DecidableEq, Repr

/-- Syntax of the regular expressions occurring in the step definitions. -/
inductive Regex where
  | bol : Regex
  | eol : Regex
  | chr : Char → Regex
  | digit : Regex
  | seq : Regex → Regex → Regex
  | star : Regex → Regex
  | opt : Regex → Regex
  | rep : Regex → Nat → Nat → Regex
  deriving Repr

/-- Greedy `*`: iterate `f` while it consumes input, keeping every stopping
point; at most `fuel` iterations, one per remaining character. -/
def starLoop (f : Pos → List Pos) : Nat → Pos → List Pos
  | 0, p => [p]
  | n + 1, p =>
    ((f p).filter (fun q => decide (q.rest.length < p.rest.length))).flatMap (starLoop f n) ++ [p]

/-- Greedy `{lo,hi}`: between `lo` and `hi` iterations of `f`. -/
def repLoop (f : Pos → List Pos) : Nat → Nat → Pos → List Pos
  | lo, 0, p => if lo = 0 then [p] else []
  | lo, hi + 1, p => (f p).flatMap (repLoop f (lo - 1) hi) ++ (if lo = 0 then [p] else [])

/-- All positions at which a match of the expression started at `p` can
end, in backtracking order.  `^` and `$` are the anchors of a pattern
without the `m` flag: start of input and end of input. -/
def matchRe : Regex → Pos → List Pos
  | .bol, p => if p.idx = 0 then [p] else []
  | .eol, p => if p.rest = [] then [p] else []
  | .chr c, p =>
    match p.rest with
    | [] => []
    | x :: xs => if x = c then [⟨p.idx + 1, xs⟩] else []
  | .digit, p =>
    match p.rest with
    | [] => []
    | x :: xs => if x.isDigit then [⟨p.idx + 1, xs⟩] else []
  | .seq a b, p => (matchRe a p).flatMap (matchRe b)
  | .star a, p => starLoop (matchRe a) p.rest.length p
  | .opt a, p => matchRe a p ++ [p]
  | .rep a lo hi, p => repLoop (matchRe a) lo hi p

/-- `RegExp.prototype.test` for a pattern without flags: some start index
admits a match. -/
def test (r : Regex) (s : List Char) : Bool :=
  (List.range (s.length + 1)).any (fun i => !(matchRe r ⟨i, s.drop i⟩).isEmpty)

/-- The pattern `/^\$\d{1,3}(,\d{3})*(\.\d{2})?$/`. -/
def currencyBody : Regex :=
  .seq (.chr '$')
    (.seq (.rep .digit 1 3)
      (.seq (.star (.seq (.chr ',') (.rep .digit 3 3)))
        (.opt (.seq (.chr '.') (.rep .digit 2 2)))))

/-- The pattern `/^\$\d{1,3}(,\d{3})*(\.\d{2})?$/` with its anchors. -/
def currencyRe : Regex :=
  .seq .bol (.seq currencyBody .eol)

/-- `String(v)` for the value returned by `textContent()`: `null` becomes
the text `null`. -/
def toStr : Option (List Char) → List Char
  | none => "null".toList
  | some s => s

/-- Body of `Then('the result should be displayed with proper currency and
decimal formatting')` after the result text has been read. -/
def currencyStep (result : Option (List Char)) : Except String Unit :=
  if !test currencyRe (toStr result) then
    .error "Result not formatted as currency"
  else
    .ok ()

/-! ## Numeric result checks -/

/-- `String.prototype.replace` with a global pattern that matches exactly
the single characters satisfying `p`: each of them is replaced by `repl`, all
other characters are kept. -/
def replaceAll (p : Char → Bool) (repl : Str) : Str → Str
  | [] => []
  | c :: cs => (if p c then repl else [c]) ++ replaceAll p repl cs

/-- `result.replace(/[^0-9.]/g, '')`. -/
def stripNonNumeric (s : Str) : Str :=
  replaceAll (fun c => !(c.isDigit || c == '.')) [] s

/-- Mathematical value `mantissa / 10 ^ scale` of a decimal numeral. -/
structure Decimal where
  mantissa : Nat
  scale : Nat
  deriving DecidableEq, Repr

/-- Number written by a sequence of decimal digits. -/
def digitsToNat (ds : Str) : Nat :=
  ds.foldl (fun n c => 10 * n + (c.toNat - 48)) 0

/-- `Number(t)` for a text `t` over the characters `0`-`9` and `.`, the only
texts `stripNonNumeric` returns.  The empty text converts to 0; the numerals
`ddd`, `ddd.`, `ddd.ddd` and `.ddd` convert to the number they write (given
here by its exact decimal value, which `Number` rounds to a double); every
other text converts to NaN, rendered as `none`. -/
def toNumber (t : Str) : Option Decimal :=
  let ip := t.takeWhile Char.isDigit
  match t.dropWhile Char.isDigit with
  | [] => some ⟨digitsToNat ip, 0⟩
  | c :: fp =>
    if c = '.' ∧ fp.all Char.isDigit = true ∧ (ip ≠ [] ∨ fp ≠ []) then
      some ⟨digitsToNat (ip ++ fp), fp.length⟩
    else
      none

/-- The condition `!result || isNaN(Number(result.replace(/[^0-9.]/g, '')))`
on the value returned by `textContent()`. -/
def numericCheckFails : Option Str → Bool
  | none => true
  | some s => s.isEmpty || (toNumber (stripNonNumeric s)).isNone

/-- Body of `Then('the monthly payment should be calculated and displayed
correctly')` after the result text has been read. -/
def monthlyPaymentStep (result : Option Str) : Except String Unit :=
  if numericCheckFails result then
    .error "Monthly payment not calculated or displayed"
  else
    .ok ()

/-- Body of `Then('the calculator should display the correct result')` after
the result text has been read. -/
def correctResultStep (result : Option Str) : Except String Unit :=
  if numericCheckFails result then
    .error "Calculator did not display correct result"
  else
    .ok ()

/-- `Then('the monthly payment should be calculated and displayed
correctly')`, whole: the visibility assertion, then the check of the text. -/
def monthlyPaymentThen (visible : Bool) (result : Option Str) : Except String Unit := do
  toBeVisible visible
  monthlyPaymentStep result

/-- `Then('the calculator should display the correct result')`, whole: the
visibility assertion, then the check of the text. -/
def correctResultThen (visible : Bool) (result : Option Str) : Except String Unit := do
  toBeVisible visible
  correctResultStep result

/-! ## Paths (`path.join` on a POSIX system) -/

/-- Segments of a path between its `/` separators. -/
def splitSlash : Str → List Str
  | [] => [[]]
  | c :: cs =>
    if c = '/' then [] :: splitSlash cs
    else
      match splitSlash cs with
      | seg :: segs => (c :: seg) :: segs
      | [] => [[c]]

/-- Segments written out with `/` between them. -/
def joinSlash : List Str → Str
  | [] => []
  | [seg] => seg
  | seg :: segs => seg ++ '/' :: joinSlash segs

/-- One segment pushed on the stack of kept segments (last one first):
empty segments and `.` are dropped, `..` removes the segment before it, or
is kept when there is none to remove and the path is relative. -/
def normalizeStep (allowAboveRoot : Bool) (stack : List Str) (seg : Str) : List Str :=
  if seg = [] ∨ seg = ['.'] then stack
  else if seg = ['.', '.'] then
    match stack with
    | top :: below =>
      if top ≠ ['.', '.'] then below
      else if allowAboveRoot then seg :: stack else stack
    | [] => if allowAboveRoot then [seg] else []
  else seg :: stack

/-- `path.posix.normalize`. -/
def normalize (path : Str) : Str :=
  if path = [] then ['.']
  else
    let isAbsolute := path.head? = some '/'
    let trailingSeparator := path.getLast? = some '/'
    let body := joinSlash ((splitSlash path).foldl (normalizeStep (!isAbsolute)) []).reverse
    if body = [] then
      if isAbsolute then ['/'] else if trailingSeparator then ['.', '/'] else ['.']
    else
      (if isAbsolute then ['/'] else []) ++ body ++ (if trailingSeparator then ['/'] else [])

/-- `path.posix.join`: the non-empty arguments joined by `/`, normalized. -/
def pathJoin (parts : List Str) : Str :=
  match parts.filter (fun a => !a.isEmpty) with
  | [] => ['.']
  | a :: as => normalize (joinSlash (a :: as))

/-- Directory holding a path: the path without its last segment. -/
def parentDir (path : Str) : Str :=
  joinSlash (splitSlash path).dropLast

/-! ## The `After` hook -/

/-- The parts of the runner's argument that the hook reads: the status of
`scenario.result` (absent when there is no result) and `scenario.pickle.name`. -/
structure Scenario where
  result : Option Str
  name : Str

/-- `!scenario.result || scenario.result.status === 'PASSED'`. -/
def passed (sc : Scenario) : Bool :=
  match sc.result with
  | none => true
  | some status => status == "PASSED".toList

/-- The directory `dir` chosen by the hook. -/
def screenshotDir (sc : Scenario) : Str :=
  if passed sc then pathJoin ["screenshots".toList, "passed".toList]
  else pathJoin ["screenshots".toList, "failed".toList]

/-- The template `Date.now()-name.png`, where the name has gone through
`replace(/ /g, '_')`; `now` is the millisecond count returned by `Date.now()`. -/
def fileName (now : Nat) (name : Str) : Str :=
  Nat.toDigits 10 now ++ '-' :: replaceAll (fun c => c == ' ') ['_'] name ++ ".png".toList

/-- The path `filePath` handed to `page.screenshot`. -/
def screenshotPath (now : Nat) (sc : Scenario) : Str :=
  pathJoin [screenshotDir sc, fileName now sc.name]

/-- Operations of the environment that fail during a scenario. -/
structure Faults where
  launch : Bool
  newContext : Bool
  newPage : Bool
  goto : Bool
  mkdir : Bool
  screenshot : Bool
  deriving DecidableEq, Repr

/-- State read and written by the `Given` step and the `After` hook: the
module variable `browser`, the browser process it refers to, the property
`this.page`, the directories and screenshot files on disk and the lines
written by `console.error`. -/
structure World where
  browserVar : Bool
  browserRunning : Bool
  thisPage : Bool
  dirs : List Str
  files : List Str
  errors : List String
  deriving DecidableEq, Repr

/-- State left by a step or hook, and the error it threw, if any. -/
structure Outcome where
  world : World
  thrown : Option String
  deriving DecidableEq, Repr

/-- State before the first step of a scenario. -/
def World.initial : World :=
  ⟨false, false, false, [], [], []⟩

/-- `Given('the user is on the Personal Loan Calculator page')`. -/
def givenStep (f : Faults) (w : World) : Outcome :=
  if f.launch then ⟨w, some "chromium.launch"⟩
  else
    let w1 := { w with browserVar := true, browserRunning := true }
    if f.newContext then ⟨w1, some "browser.newContext"⟩
    else if f.newPage then ⟨w1, some "context.newPage"⟩
    else if f.goto then ⟨w1, some "page.goto"⟩
    else ⟨{ w1 with thisPage := true }, none⟩

/-- `ensureDirSync(dir)`. -/
def ensureDirSync (f : Faults) (dir : Str) (w : World) : Outcome :=
  if !w.dirs.contains dir then
    if f.mkdir then ⟨w, some "fs.mkdirSync"⟩
    else ⟨{ w with dirs := dir :: w.dirs }, none⟩
  else ⟨w, none⟩

/-- The `After` hook. -/
def afterHook (f : Faults) (now : Nat) (sc : Scenario) (w : World) : Outcome :=
  if !w.thisPage then ⟨w, none⟩
  else
    match ensureDirSync f (screenshotDir sc) w with
    | ⟨w1, some e⟩ => ⟨w1, some e⟩
    | ⟨w1, none⟩ =>
      let w2 :=
        if f.screenshot then { w1 with errors := "Screenshot failed:" :: w1.errors }
        else { w1 with files := screenshotPath now sc :: w1.files }
      if w2.browserVar then ⟨{ w2 with browserRunning := false }, none⟩
      else ⟨w2, none⟩

/-- A scenario as far as the browser is concerned: the `Given` step, then
the `After` hook, which the runner calls whether or not a step threw. -/
def runScenario (f : Faults) (now : Nat) (sc : Scenario) (w : World) : Outcome :=
  afterHook f now sc (givenStep f w).world

/-! ## Form fields -/

/-- The page as far as the field steps see it: the value of each field,
by selector. -/
abbrev Fields := Str → Str

/-- `await expect(page.locator(selector)).toHaveValue(expected)`: the call
of `expect` comes first, the comparison of the value after it. -/
def toHaveValue (p : Fields) (selector expected : Str) : Except String Unit := do
  callExpect
  if p selector = expected then .ok () else .error "toHaveValue"

/-- `Then('all input fields should be cleared')`. -/
def allFieldsClearedStep (p : Fields) : Except String Unit := do
  toHaveValue p "#loanAmount".toList []
  toHaveValue p "#interestRate".toList []
  toHaveValue p "#term".toList []

/-- Field values of a page on which nothing has been entered. -/
def Fields.fresh : Fields :=
  fun _ => []

/-! ## Clicking a button by its label -/

/-- The double-quote character. -/
def dquote : Char := Char.ofNat 34

/-- The selector built by the click step: `button:has-text("label")`, the
label placed between the quotes as it is. -/
def clickSelector (label : Str) : Str :=
  "button:has-text(".toList ++ dquote :: label ++ [dquote, ')']

/-- A selector `tag:has-text("text")`. -/
structure HasText where
  tag : Str
  text : Str
  deriving DecidableEq, Repr

/-- Characters of a tag name. -/
def isTagChar (c : Char) : Bool :=
  c.isAlphanum || c == '-'

/-- Contents of a quoted string, read from just after its opening quote up
to the closing quote, together with the text after the closing quote.
Strings with an escape or a line break, and strings that never close, are
outside the fragment read here. -/
def readQuoted : Str → Option (Str × Str)
  | [] => none
  | c :: cs =>
    if c = dquote then some ([], cs)
    else if c = '\\' ∨ c = '\n' ∨ c = '\r' ∨ c = Char.ofNat 12 then none
    else (readQuoted cs).map (fun r => (c :: r.1, r.2))

/-- Reads a selector text of the exact form `tag:has-text("text")`; `none`
for any other text. -/
def parseHasText (sel : Str) : Option HasText :=
  let tag := sel.takeWhile isTagChar
  let rest := sel.dropWhile isTagChar
  let opening := ":has-text(".toList ++ [dquote]
  if opening.isPrefixOf rest then
    match readQuoted (rest.drop opening.length) with
    | some (text, [')']) => some ⟨tag, text⟩
    | _ => none
  else none

/-- An element of the page, in document order: its tag name, its text and
whether it can receive a click (visible, enabled, not covered). -/
structure Element where
  tag : Str
  text : Str
  actionable : Bool
  deriving DecidableEq, Repr

/-- `hay.includes(needle)`. -/
def includes (hay needle : Str) : Bool :=
  hay.tails.any (fun t => needle.isPrefixOf t)

/-- White space of JavaScript (`\s` and `trim`). -/
def isWhiteSpace (c : Char) : Bool :=
  let n := c.toNat
  n = 9 || n = 10 || n = 11 || n = 12 || n = 13 || n = 32 || n = 160 || n = 5760 ||
    (8192 ≤ n && n ≤ 8202) || n = 8232 || n = 8233 || n = 8239 || n = 8287 || n = 12288 ||
    n = 65279

/-- Runs of white space replaced by one space each, except a run at the
end, which is dropped; `pending` tells that a run of white space has been
passed since the last character written. -/
def collapseSpaces (pending : Bool) : Str → Str
  | [] => []
  | c :: cs =>
    if isWhiteSpace c then collapseSpaces true cs
    else (if pending then [' ', c] else [c]) ++ collapseSpaces false cs

/-- `text.trim().replace(/\s+/g, ' ')`: white space at both ends removed,
every other run of white space replaced by one space. -/
def normalizeWhiteSpace (s : Str) : Str :=
  collapseSpaces false (s.dropWhile isWhiteSpace)

/-- `String.prototype.toLowerCase` on ASCII text: the letters `A`-`Z` become
`a`-`z`, every other ASCII character is kept. -/
def toLowerCase (s : Str) : Str :=
  s.map Char.toLower

/-- The text `:has-text` compares: white space normalized, then lower case. -/
def normalizeText (s : Str) : Str :=
  toLowerCase (normalizeWhiteSpace s)

/-- The `:has-text` test of Playwright: the normalized text of the element
contains the normalized argument. -/
def hasText (arg : Str) (e : Element) : Bool :=
  includes (normalizeText e.text) (normalizeText arg)

/-- An element matches `tag:has-text("text")`. -/
def matchesSelector (sel : HasText) (e : Element) : Bool :=
  e.tag == sel.tag && hasText sel.text e

/-- What `page.click(selector)` does. -/
inductive ClickResult where
  | clicked (e : Element)
  | timeout
  | otherSelector
  deriving DecidableEq, Repr

/-- `When('clicks the {string} button')`: the first element matching the
selector is clicked once it is actionable; the call times out when no
element matches or the first match never becomes actionable.  A selector
text that is not of the form `tag:has-text("text")` gives `otherSelector`:
what Playwright does with it is not described here. -/
def clickStep (page : List Element) (label : Str) : ClickResult :=
  match parseHasText (clickSelector label) with
  | none => .otherSelector
  | some sel =>
    match page.find? (matchesSelector sel) with
    | none => .timeout
    | some e => if e.actionable then .clicked e else .timeout

/-! ## Properties stated by the specification -/

/-- The result text has the currency shape: `$`, one to three digits, any
number of groups of `,` and three digits, optionally `.` and two digits. -/
def IsCurrency (s : Str) : Prop :=
  ∃ (d : Str) (gs : List Str) (f : Str),
    s = '$' :: d ++ (gs.map (fun g => ',' :: g)).flatten ++ f ∧
    1 ≤ d.length ∧ d.length ≤ 3 ∧ (∀ c ∈ d, c.isDigit = true) ∧
    (∀ g ∈ gs, g.length = 3 ∧ ∀ c ∈ g, c.isDigit = true) ∧
    (f = [] ∨ ∃ a b, a.isDigit = true ∧ b.isDigit = true ∧ f = ['.', a, b])

/-- The matcher `f` consumes exactly the words of `L`. -/
def Consumes (f : Pos → List Pos) (L : Str → Prop) : Prop :=
  ∀ p q, q ∈ f p ↔ ∃ w, L w ∧ p.rest = w ++ q.rest ∧ q.idx = p.idx + w.length

/-- A label the click step can place between quotes unchanged: it has no
double quote, no backslash and no line break. -/
def PlainLabel (label : Str) : Prop :=
  ∀ c ∈ label, c ≠ dquote ∧ c ≠ '\\' ∧ c ≠ '\n' ∧ c ≠ '\r' ∧ c ≠ Char.ofNat 12

/-- A text made of ASCII characters only. -/
def IsAscii (s : Str) : Prop :=
  ∀ c ∈ s, c.toNat < 128

/-- The element is a `button` whose text contains the label, white space
and letter case aside: its normalized text is the normalized label with
some text before it and some text after it. -/
def ButtonContaining (label : Str) (e : Element) : Prop :=
  e.tag = "button".toList ∧
    ∃ before after : Str, normalizeText e.text = before ++ normalizeText label ++ after

/-! ## The regular-expression matcher -/

theorem consumes_chr (c : Char) : Consumes (matchRe (.chr c)) (fun w => w = [c]) := by
  intro p q
  obtain ⟨i, r⟩ := p
  cases r with
  | nil => simp [matchRe]
  | cons x xs =>
    simp only [matchRe]
    split_ifs with h
    · subst h
      constructor
      · intro hq
        simp at hq
        subst hq
        exact ⟨[x], rfl, rfl, rfl⟩
      · rintro ⟨w, rfl, h1, h2⟩
        obtain ⟨qi, qr⟩ := q
        simp at h1 h2 ⊢
        exact ⟨h2, h1.symm⟩
    · constructor
      · intro hq; simp at hq
      · rintro ⟨w, rfl, h1, _⟩
        simp at h1
        exact absurd h1.1 h

theorem consumes_digit :
    Consumes (matchRe .digit) (fun w => ∃ d, d.isDigit = true ∧ w = [d]) := by
  intro p q
  obtain ⟨i, r⟩ := p
  cases r with
  | nil =>
    simp only [matchRe]
    constructor
    · intro hq; simp at hq
    · rintro ⟨w, ⟨d, _, rfl⟩, h1, _⟩
      simp at h1
  | cons x xs =>
    simp only [matchRe]
    split_ifs with h
    · constructor
      · intro hq
        simp at hq
        subst hq
        exact ⟨[x], ⟨x, h, rfl⟩, rfl, rfl⟩
      · rintro ⟨w, ⟨d, _, rfl⟩, h1, h2⟩
        obtain ⟨qi, qr⟩ := q
        simp at h1 h2 ⊢
        exact ⟨h2, h1.2.symm⟩
    · constructor
      · intro hq; simp at hq
      · rintro ⟨w, ⟨d, hd, rfl⟩, h1, _⟩
        simp at h1
        rw [h1.1] at h
        exact absurd hd h

theorem consumes_seq {f g : Pos → List Pos} {La Lb : List Char → Prop}
    (hf : Consumes f La) (hg : Consumes g Lb) :
    Consumes (fun p => (f p).flatMap g) (fun w => ∃ u v, La u ∧ Lb v ∧ w = u ++ v) := by
  intro p q
  simp only [List.mem_flatMap]
  constructor
  · rintro ⟨m, hm, hq⟩
    obtain ⟨u, hu, e1, i1⟩ := (hf p m).1 hm
    obtain ⟨v, hv, e2, i2⟩ := (hg m q).1 hq
    refine ⟨u ++ v, ⟨u, v, hu, hv, rfl⟩, ?_, ?_⟩
    · rw [e1, e2, List.append_assoc]
    · rw [i2, i1, List.length_append, Nat.add_assoc]
  · rintro ⟨w, ⟨u, v, hu, hv, rfl⟩, e, i⟩
    refine ⟨⟨p.idx + u.length, v ++ q.rest⟩, ?_, ?_⟩
    · exact (hf p _).2 ⟨u, hu, by rw [e, List.append_assoc], rfl⟩
    · exact (hg _ q).2 ⟨v, hv, rfl, by rw [i, List.length_append, Nat.add_assoc]⟩

theorem consumes_opt {f : Pos → List Pos} {L : List Char → Prop} (hf : Consumes f L) :
    Consumes (fun p => f p ++ [p]) (fun w => L w ∨ w = []) := by
  intro p q
  simp only [List.mem_append, List.mem_singleton]
  constructor
  · rintro (h | rfl)
    · obtain ⟨w, hw, e, i⟩ := (hf p q).1 h
      exact ⟨w, Or.inl hw, e, i⟩
    · exact ⟨[], Or.inr rfl, rfl, rfl⟩
  · rintro ⟨w, hw | rfl, e, i⟩
    · exact Or.inl ((hf p q).2 ⟨w, hw, e, i⟩)
    · right
      obtain ⟨pi, pr⟩ := p
      obtain ⟨qi, qr⟩ := q
      simp at e i
      simp [e, i]

theorem consumes_rep {f : Pos → List Pos} {L : List Char → Prop} (hf : Consumes f L) :
    ∀ (hi lo : Nat), Consumes (repLoop f lo hi)
      (fun w => ∃ ws : List (List Char), (∀ u ∈ ws, L u) ∧ lo ≤ ws.length ∧
        ws.length ≤ hi ∧ w = ws.flatten) := by
  intro hi
  induction hi with
  | zero =>
    intro lo p q
    simp only [repLoop]
    constructor
    · intro h
      split_ifs at h with h0
      · simp at h
        subst h
        exact ⟨[], ⟨[], by simp, by omega, by simp, rfl⟩, rfl, rfl⟩
      · simp at h
    · rintro ⟨w, ⟨ws, _, h1, h2, rfl⟩, e, i⟩
      have hws : ws = [] := List.eq_nil_of_length_eq_zero (by omega)
      subst hws
      have h0 : lo = 0 := by simpa using h1
      obtain ⟨pi, pr⟩ := p
      obtain ⟨qi, qr⟩ := q
      simp at e i
      simp [h0, e, i]
  | succ n ih =>
    intro lo p q
    simp only [repLoop, List.mem_append, List.mem_flatMap]
    constructor
    · rintro (⟨m, hm, hq⟩ | h)
      · obtain ⟨u, hu, e1, i1⟩ := (hf p m).1 hm
        obtain ⟨v, ⟨ws, hws, h1, h2, rfl⟩, e2, i2⟩ := (ih (lo - 1) m q).1 hq
        refine ⟨u ++ ws.flatten, ⟨u :: ws, ?_, ?_, ?_, rfl⟩, ?_, ?_⟩
        · intro x hx
          rcases List.mem_cons.1 hx with rfl | hx
          · exact hu
          · exact hws x hx
        · simp; omega
        · simp; omega
        · rw [e1, e2, List.append_assoc]
        · rw [i2, i1, List.length_append, Nat.add_assoc]
      · split_ifs at h with h0
        · simp at h
          subst h
          exact ⟨[], ⟨[], by simp, by omega, by simp, rfl⟩, rfl, rfl⟩
        · simp at h
    · rintro ⟨w, ⟨ws, hws, h1, h2, rfl⟩, e, i⟩
      cases ws with
      | nil =>
        right
        have h0 : lo = 0 := by simpa using h1
        obtain ⟨pi, pr⟩ := p
        obtain ⟨qi, qr⟩ := q
        simp at e i
        simp [h0, e, i]
      | cons u us =>
        left
        refine ⟨⟨p.idx + u.length, us.flatten ++ q.rest⟩, ?_, ?_⟩
        · exact (hf p _).2 ⟨u, hws u (List.mem_cons_self _ _),
            by rw [e, List.flatten_cons, List.append_assoc], rfl⟩
        · refine (ih (lo - 1) _ q).2 ⟨us.flatten, ⟨us, ?_, ?_, ?_, rfl⟩, rfl, ?_⟩
          · exact fun x hx => hws x (List.mem_cons_of_mem _ hx)
          · simp at h1; omega
          · simp at h2; omega
          · rw [i, List.flatten_cons, List.length_append, Nat.add_assoc]

theorem consumes_starLoop {f : Pos → List Pos} {L : List Char → Prop} (hf : Consumes f L) :
    ∀ (n : Nat) (p q : Pos), p.rest.length ≤ n →
      (q ∈ starLoop f n p ↔
        ∃ w, (∃ ws : List (List Char), (∀ u ∈ ws, L u) ∧ w = ws.flatten) ∧
          p.rest = w ++ q.rest ∧ q.idx = p.idx + w.length) := by
  -- every word of the language is a concatenation of non-empty words of `L`
  have strip : ∀ ws : List (List Char), (∀ u ∈ ws, L u) →
      ∃ vs : List (List Char), (∀ u ∈ vs, L u ∧ u ≠ []) ∧ vs.flatten = ws.flatten := by
    intro ws
    induction ws with
    | nil => intro _; exact ⟨[], by simp, rfl⟩
    | cons u us ih =>
      intro h
      obtain ⟨vs, hvs, e⟩ := ih (fun x hx => h x (List.mem_cons_of_mem _ hx))
      by_cases hu : u = []
      · exact ⟨vs, hvs, by simp [hu, e]⟩
      · refine ⟨u :: vs, ?_, by simp [e]⟩
        intro x hx
        rcases List.mem_cons.1 hx with rfl | hx
        · exact ⟨h x (List.mem_cons_self _ _), hu⟩
        · exact hvs x hx
  intro n
  induction n with
  | zero =>
    intro p q hp
    have hr : p.rest = [] := List.eq_nil_of_length_eq_zero (by omega)
    simp only [starLoop, List.mem_singleton]
    constructor
    · rintro rfl
      exact ⟨[], ⟨[], by simp, rfl⟩, rfl, rfl⟩
    · rintro ⟨w, _, e, i⟩
      rw [hr] at e
      have hw : w = [] := (List.append_eq_nil.1 e.symm).1
      have hq : q.rest = [] := (List.append_eq_nil.1 e.symm).2
      obtain ⟨pi, pr⟩ := p
      obtain ⟨qi, qr⟩ := q
      simp at hr hq i
      simp [hr, hq, i, hw]
  | succ n ih =>
    intro p q hp
    simp only [starLoop, List.mem_append, List.mem_flatMap, List.mem_filter,
      List.mem_singleton, decide_eq_true_eq]
    constructor
    · rintro (⟨m, ⟨hm, hlt⟩, hq⟩ | rfl)
      · obtain ⟨u, hu, e1, i1⟩ := (hf p m).1 hm
        obtain ⟨v, ⟨ws, hws, rfl⟩, e2, i2⟩ := (ih m q (by omega)).1 hq
        refine ⟨u ++ ws.flatten, ⟨u :: ws, ?_, rfl⟩, ?_, ?_⟩
        · intro x hx
          rcases List.mem_cons.1 hx with rfl | hx
          · exact hu
          · exact hws x hx
        · rw [e1, e2, List.append_assoc]
        · rw [i2, i1, List.length_append, Nat.add_assoc]
      · exact ⟨[], ⟨[], by simp, rfl⟩, rfl, rfl⟩
    · rintro ⟨w, ⟨ws, hws, rfl⟩, e, i⟩
      obtain ⟨vs, hvs, evs⟩ := strip ws hws
      rw [← evs] at e i
      cases vs with
      | nil =>
        right
        obtain ⟨pi, pr⟩ := p
        obtain ⟨qi, qr⟩ := q
        simp at e i
        simp [e, i]
      | cons u us =>
        left
        have hu := hvs u (List.mem_cons_self _ _)
        have hul : 0 < u.length := List.length_pos.2 hu.2
        refine ⟨⟨p.idx + u.length, us.flatten ++ q.rest⟩, ⟨?_, ?_⟩, ?_⟩
        · exact (hf p _).2 ⟨u, hu.1, by rw [e, List.flatten_cons, List.append_assoc], rfl⟩
        · have := congrArg List.length e
          simp only [List.flatten_cons, List.length_append] at this ⊢
          omega
        · have hlen : (us.flatten ++ q.rest).length ≤ n := by
            have := congrArg List.length e
            simp only [List.flatten_cons, List.length_append] at this ⊢
            omega
          refine (ih ⟨p.idx + u.length, us.flatten ++ q.rest⟩ q hlen).2
            ⟨us.flatten, ⟨us, ?_, rfl⟩, rfl, ?_⟩
          · exact fun x hx => (hvs x (List.mem_cons_of_mem _ hx)).1
          · rw [i, List.flatten_cons, List.length_append, Nat.add_assoc]

theorem consumes_star {f : Pos → List Pos} {L : List Char → Prop} (hf : Consumes f L) :
    Consumes (fun p => starLoop f p.rest.length p)
      (fun w => ∃ ws : List (List Char), (∀ u ∈ ws, L u) ∧ w = ws.flatten) := by
  intro p q
  exact consumes_starLoop hf p.rest.length p q (Nat.le_refl _)

theorem test_anchored (b : Regex) (s : List Char) :
    test (.seq .bol (.seq b .eol)) s = true ↔ ∃ q ∈ matchRe b ⟨0, s⟩, q.rest = [] := by
  have key : ∀ p : Pos, (matchRe (.seq b .eol) p ≠ [] ↔ ∃ q ∈ matchRe b p, q.rest = []) := by
    intro p
    constructor
    · intro h
      obtain ⟨x, hx⟩ := List.exists_mem_of_ne_nil _ h
      simp only [matchRe, List.mem_flatMap] at hx
      obtain ⟨q, hq, hx⟩ := hx
      refine ⟨q, hq, ?_⟩
      by_contra hne
      simp [hne] at hx
    · rintro ⟨q, hq, hr⟩
      have : q ∈ matchRe (.seq b .eol) p := by
        simp only [matchRe, List.mem_flatMap]
        exact ⟨q, hq, by simp [hr]⟩
      exact List.ne_nil_of_mem this
  simp only [test, List.any_eq_true, List.mem_range, Bool.not_eq_true', List.isEmpty_eq_false]
  constructor
  · rintro ⟨i, _, hi⟩
    have hi0 : i = 0 := by
      by_contra hne
      apply hi
      simp [matchRe, hne]
    subst hi0
    have h2 : matchRe (.seq b .eol) ⟨0, s⟩ ≠ [] := by
      intro h0
      apply hi
      simp only [matchRe] at h0 ⊢
      simp [h0]
    exact (key _).1 h2
  · intro h
    refine ⟨0, by omega, ?_⟩
    have h2 := (key ⟨0, s⟩).2 h
    intro h0
    apply h2
    simp only [matchRe] at h0 ⊢
    simpa using h0

/-- Digit words of a length between `lo` and `hi`. -/
theorem digit_words (lo hi : Nat) (w : List Char) :
    (∃ ws : List (List Char), (∀ u ∈ ws, ∃ d : Char, d.isDigit = true ∧ u = [d]) ∧
        lo ≤ ws.length ∧ ws.length ≤ hi ∧ w = ws.flatten) ↔
      (lo ≤ w.length ∧ w.length ≤ hi ∧ ∀ c ∈ w, c.isDigit = true) := by
  have aux : ∀ ws : List (List Char), (∀ u ∈ ws, ∃ d : Char, d.isDigit = true ∧ u = [d]) →
      ws.flatten.length = ws.length ∧ ∀ c ∈ ws.flatten, c.isDigit = true := by
    intro ws
    induction ws with
    | nil => intro _; simp
    | cons u us ih =>
      intro h
      obtain ⟨d, hd, rfl⟩ := h u (List.mem_cons_self _ _)
      obtain ⟨h1, h2⟩ := ih (fun x hx => h x (List.mem_cons_of_mem _ hx))
      refine ⟨by simp [h1], ?_⟩
      intro c hc
      simp only [List.flatten_cons, List.singleton_append, List.mem_cons] at hc
      rcases hc with rfl | hc
      · exact hd
      · exact h2 c hc
  constructor
  · rintro ⟨ws, hws, h1, h2, rfl⟩
    obtain ⟨e, hd⟩ := aux ws hws
    exact ⟨by omega, by omega, hd⟩
  · rintro ⟨h1, h2, hd⟩
    refine ⟨w.map (fun c => [c]), ?_, by simpa using h1, by simpa using h2, ?_⟩
    · intro u hu
      obtain ⟨c, hc, rfl⟩ := List.mem_map.1 hu
      exact ⟨c, hd c hc, rfl⟩
    · clear h1 h2 hd
      induction w with
      | nil => rfl
      | cons c cs ih => simp [← ih]

theorem consumes_digits (lo hi : Nat) :
    Consumes (matchRe (.rep .digit lo hi))
      (fun w => lo ≤ w.length ∧ w.length ≤ hi ∧ ∀ c ∈ w, c.isDigit = true) := by
  intro p q
  have h := consumes_rep consumes_digit hi lo p q
  simp only [digit_words] at h
  exact h

/-- Words consumed by `(,\d{3})*`. -/
theorem consumes_groups :
    Consumes (matchRe (.star (.seq (.chr ',') (.rep .digit 3 3))))
      (fun w => ∃ gs : List (List Char),
        (∀ g ∈ gs, g.length = 3 ∧ ∀ c ∈ g, c.isDigit = true) ∧
        w = (gs.map (fun g => ',' :: g)).flatten) := by
  intro p q
  have h := consumes_star (consumes_seq (consumes_chr ',') (consumes_digits 3 3)) p q
  refine Iff.trans h ?_
  constructor
  · rintro ⟨w, ⟨ws, hws, rfl⟩, e, i⟩
    refine ⟨ws.flatten, ⟨ws.map List.tail, ?_, ?_⟩, e, i⟩
    · intro g hg
      obtain ⟨u, hu, rfl⟩ := List.mem_map.1 hg
      obtain ⟨a, b, rfl, ⟨h1, h2, h3⟩, rfl⟩ := hws u hu
      exact ⟨by simp; omega, by simpa using h3⟩
    · congr 1
      rw [List.map_map]
      symm
      calc ws.map ((fun g => ',' :: g) ∘ List.tail) = ws.map id := by
            apply List.map_congr_left
            intro u hu
            obtain ⟨a, b, rfl, _, rfl⟩ := hws u hu
            simp
        _ = ws := List.map_id _
  · rintro ⟨w, ⟨gs, hgs, rfl⟩, e, i⟩
    refine ⟨_, ⟨gs.map (fun g => ',' :: g), ?_, rfl⟩, e, i⟩
    intro u hu
    obtain ⟨g, hg, rfl⟩ := List.mem_map.1 hu
    exact ⟨[','], g, rfl, ⟨by have := (hgs g hg).1; omega, by have := (hgs g hg).1; omega,
      (hgs g hg).2⟩, rfl⟩

/-- Words consumed by `(\.\d{2})?`. -/
theorem consumes_fraction :
    Consumes (matchRe (.opt (.seq (.chr '.') (.rep .digit 2 2))))
      (fun w => w = [] ∨ ∃ a b : Char, a.isDigit = true ∧ b.isDigit = true ∧ w = ['.', a, b]) := by
  intro p q
  have h := consumes_opt (consumes_seq (consumes_chr '.') (consumes_digits 2 2)) p q
  refine Iff.trans h ?_
  constructor
  · rintro ⟨w, hw, e, i⟩
    refine ⟨w, ?_, e, i⟩
    rcases hw with ⟨u, v, rfl, ⟨h1, h2, h3⟩, rfl⟩ | rfl
    · right
      match v, h1, h2, h3 with
      | [a, b], _, _, h3 => exact ⟨a, b, h3 a (by simp), h3 b (by simp), rfl⟩
      | [], h1, _, _ => simp at h1
      | [_], h1, _, _ => simp at h1
      | _ :: _ :: _ :: _, _, h2, _ => simp at h2
    · exact Or.inl rfl
  · rintro ⟨w, hw, e, i⟩
    refine ⟨w, ?_, e, i⟩
    rcases hw with rfl | ⟨a, b, ha, hb, rfl⟩
    · exact Or.inr rfl
    · left
      refine ⟨['.'], [a, b], rfl, ⟨by simp, by simp, ?_⟩, rfl⟩
      intro c hc
      simp at hc
      rcases hc with rfl | rfl
      · exact ha
      · exact hb

theorem consumes_currencyBody : Consumes (matchRe currencyBody) IsCurrency := by
  intro p q
  have h := consumes_seq (consumes_chr '$')
    (consumes_seq (consumes_digits 1 3) (consumes_seq consumes_groups consumes_fraction)) p q
  refine Iff.trans h ?_
  constructor
  · rintro ⟨w, ⟨u, v, rfl, ⟨d, v2, ⟨h1, h2, h3⟩, ⟨x, f, ⟨gs, hgs, rfl⟩, hf, rfl⟩, rfl⟩, rfl⟩, e, i⟩
    exact ⟨_, ⟨d, gs, f, by simp, h1, h2, h3, hgs, hf⟩, e, i⟩
  · rintro ⟨w, ⟨d, gs, f, rfl, h1, h2, h3, hgs, hf⟩, e, i⟩
    exact ⟨_, ⟨['$'], _, rfl, ⟨d, _, ⟨h1, h2, h3⟩, ⟨_, f, ⟨gs, hgs, rfl⟩, hf, rfl⟩, rfl⟩,
      by simp⟩, e, i⟩

theorem test_currencyRe (s : List Char) : test currencyRe s = true ↔ IsCurrency s := by
  unfold currencyRe
  rw [test_anchored]
  constructor
  · rintro ⟨q, hq, hr⟩
    obtain ⟨w, hw, e, _⟩ := (consumes_currencyBody _ q).1 hq
    simp only [hr, List.append_nil] at e
    rw [e]
    exact hw
  · intro h
    exact ⟨⟨0 + s.length, []⟩, (consumes_currencyBody _ _).2 ⟨s, h, by simp, rfl⟩, rfl⟩

/-! ## The currency step -/

theorem test_currencyRe_null : test currencyRe (toStr none) = false := by decide

theorem currencyStep_ok_iff (result : Option Str) :
    currencyStep result = .ok () ↔ test currencyRe (toStr result) = true := by
  unfold currencyStep
  cases h : test currencyRe (toStr result) <;> simp

/-- C1: the currency-format step succeeds exactly when the whole result text
is `$`, one to three digits, any number of groups of `,` and three digits
and optionally `.` and two digits; on every other text, and on a missing
text, it throws `Result not formatted as currency`. -/
theorem currencyStep_spec (result : Option Str) :
    (currencyStep result = .ok () ↔ ∃ s, result = some s ∧ IsCurrency s) ∧
    (currencyStep result = .ok () ∨
      currencyStep result = .error "Result not formatted as currency") := by
  constructor
  · rw [currencyStep_ok_iff]
    cases result with
    | none =>
      rw [test_currencyRe_null]
      simp
    | some s =>
      simp only [toStr, test_currencyRe, Option.some.injEq, exists_eq_left']
  · unfold currencyStep
    cases test currencyRe (toStr result) <;> simp

/-! ## The numeric steps -/

theorem replaceAll_append (p : Char → Bool) (r a b : Str) :
    replaceAll p r (a ++ b) = replaceAll p r a ++ replaceAll p r b := by
  induction a with
  | nil => rfl
  | cons c cs ih => simp [replaceAll, ih]

theorem mem_of_mem_strip {c : Char} {s : Str} (h : c ∈ stripNonNumeric s) : c ∈ s := by
  unfold stripNonNumeric at h
  induction s with
  | nil => simp [replaceAll] at h
  | cons x xs ih =>
    simp only [replaceAll] at h
    split_ifs at h with hx
    · simp only [List.nil_append] at h
      exact List.mem_cons_of_mem _ (ih h)
    · simp only [List.singleton_append, List.mem_cons] at h
      rcases h with rfl | h
      · exact List.mem_cons_self _ _
      · exact List.mem_cons_of_mem _ (ih h)

theorem strip_alphabet (s : Str) : ∀ c ∈ stripNonNumeric s, c.isDigit = true ∨ c = '.' := by
  unfold stripNonNumeric
  induction s with
  | nil => intro c hc; simp [replaceAll] at hc
  | cons x xs ih =>
    intro c hc
    simp only [replaceAll] at hc
    split_ifs at hc with hx
    · exact ih c (by simpa using hc)
    · simp only [List.singleton_append, List.mem_cons] at hc
      rcases hc with rfl | hc
      · have hx2 : c.isDigit = false → c = '.' := by simpa using hx
        cases hd : c.isDigit with
        | true => exact Or.inl rfl
        | false => exact Or.inr (hx2 hd)
      · exact ih c hc

theorem strip_digits {d : Str} (h : ∀ c ∈ d, c.isDigit = true) : stripNonNumeric d = d := by
  unfold stripNonNumeric
  induction d with
  | nil => rfl
  | cons x xs ih =>
    have hx := h x (List.mem_cons_self _ _)
    simp only [replaceAll, hx, Bool.true_or, Bool.not_true, Bool.false_eq_true, if_false,
      List.singleton_append]
    rw [ih (fun c hc => h c (List.mem_cons_of_mem _ hc))]

theorem strip_groups (gs : List Str) (h : ∀ g ∈ gs, g.length = 3 ∧ ∀ c ∈ g, c.isDigit = true) :
    stripNonNumeric (gs.map (fun g => ',' :: g)).flatten = gs.flatten := by
  induction gs with
  | nil => rfl
  | cons g gs ih =>
    have hg := (h g (List.mem_cons_self _ _)).2
    have e : stripNonNumeric (',' :: g) = g := by
      have := strip_digits hg
      unfold stripNonNumeric at this ⊢
      simp only [replaceAll]
      simpa using this
    simp only [List.map_cons, List.flatten_cons]
    unfold stripNonNumeric at e ih ⊢
    rw [replaceAll_append, e, ih (fun x hx => h x (List.mem_cons_of_mem _ hx))]

theorem takeWhile_digits_append {d : Str} (h : ∀ c ∈ d, c.isDigit = true) (r : Str) :
    (d ++ r).takeWhile Char.isDigit = d ++ r.takeWhile Char.isDigit ∧
    (d ++ r).dropWhile Char.isDigit = r.dropWhile Char.isDigit := by
  induction d with
  | nil => simp
  | cons x xs ih =>
    have hx := h x (List.mem_cons_self _ _)
    obtain ⟨h1, h2⟩ := ih (fun c hc => h c (List.mem_cons_of_mem _ hc))
    simp [List.takeWhile, List.dropWhile, hx, h1, h2]

theorem toNumber_digits {d : Str} (h : ∀ c ∈ d, c.isDigit = true) :
    toNumber d = some ⟨digitsToNat d, 0⟩ := by
  have := takeWhile_digits_append h []
  simp only [List.append_nil, List.takeWhile_nil, List.dropWhile_nil] at this
  simp [toNumber, this.1, this.2]

theorem toNumber_digits_dot {d fp : Str} (hd : ∀ c ∈ d, c.isDigit = true)
    (hf : ∀ c ∈ fp, c.isDigit = true) (hne : d ≠ [] ∨ fp ≠ []) :
    toNumber (d ++ '.' :: fp) = some ⟨digitsToNat (d ++ fp), fp.length⟩ := by
  have h := takeWhile_digits_append hd ('.' :: fp)
  have h1 : ('.' :: fp).takeWhile Char.isDigit = [] := by
    simp [List.takeWhile, show Char.isDigit '.' = false by decide]
  have h2 : ('.' :: fp).dropWhile Char.isDigit = '.' :: fp := by
    simp [List.dropWhile, show Char.isDigit '.' = false by decide]
  rw [h1, h2, List.append_nil] at h
  have hall : fp.all Char.isDigit = true := List.all_eq_true.2 hf
  simp only [toNumber, h.1, h.2]
  rw [if_pos ⟨trivial, hall, hne⟩]

theorem strip_currency {s : Str} (h : IsCurrency s) :
    ∃ d fp : Str, d ≠ [] ∧ (∀ c ∈ d, c.isDigit = true) ∧ (∀ c ∈ fp, c.isDigit = true) ∧
      (stripNonNumeric s = d ∨ stripNonNumeric s = d ++ '.' :: fp) := by
  obtain ⟨d, gs, f, rfl, h1, _, hd, hgs, hf⟩ := h
  have hD : ∀ c ∈ d ++ gs.flatten, c.isDigit = true := by
    intro c hc
    rcases List.mem_append.1 hc with hc | hc
    · exact hd c hc
    · obtain ⟨g, hg, hcg⟩ := List.mem_flatten.1 hc
      exact (hgs g hg).2 c hcg
  have hne : d ++ gs.flatten ≠ [] := by
    intro e
    have hd0 := (List.append_eq_nil.1 e).1
    rw [hd0] at h1
    simp at h1
  have e0 : stripNonNumeric ('$' :: d ++ (gs.map (fun g => ',' :: g)).flatten ++ f)
      = d ++ gs.flatten ++ stripNonNumeric f := by
    have e1 := strip_digits hd
    have e2 := strip_groups gs hgs
    unfold stripNonNumeric at e1 e2 ⊢
    rw [replaceAll_append, List.cons_append, replaceAll]
    simp only [show (!(Char.isDigit '$' || '$' == '.')) = true by decide, if_true,
      List.nil_append]
    rw [replaceAll_append, e1, e2]
  rcases hf with rfl | ⟨a, b, ha, hb, rfl⟩
  · refine ⟨d ++ gs.flatten, [], hne, hD, by simp, Or.inl ?_⟩
    rw [e0]
    simp [stripNonNumeric, replaceAll]
  · refine ⟨d ++ gs.flatten, [a, b], hne, hD, ?_, Or.inr ?_⟩
    · intro c hc
      simp at hc
      rcases hc with rfl | rfl
      · exact ha
      · exact hb
    · rw [e0]
      congr 1
      simp [stripNonNumeric, replaceAll, ha, hb]

theorem numericCheck_currency {s : Str} (h : IsCurrency s) :
    s ≠ [] ∧ (toNumber (stripNonNumeric s)).isSome = true ∧
      numericCheckFails (some s) = false := by
  obtain ⟨d, fp, hne, hd, hf, e⟩ := strip_currency h
  have hs : s ≠ [] := by
    obtain ⟨_, _, _, rfl, _⟩ := h
    simp
  have hn : (toNumber (stripNonNumeric s)).isSome = true := by
    rcases e with e | e
    · rw [e, toNumber_digits hd]; rfl
    · rw [e, toNumber_digits_dot hd hf (Or.inl hne)]; rfl
  refine ⟨hs, hn, ?_⟩
  cases s with
  | nil => exact absurd rfl hs
  | cons c cs =>
    simp only [numericCheckFails, List.isEmpty_cons, Bool.false_or]
    cases hx : toNumber (stripNonNumeric (c :: cs)) with
    | none => rw [hx] at hn; simp at hn
    | some v => rfl

/-- C10: a result text accepted by the currency-format step is accepted by
the numeric steps as well: it is not empty and, once every character other
than a digit or `.` is removed, it converts to a number and not to NaN. -/
theorem currency_implies_numeric (s : Str) (h : currencyStep (some s) = .ok ()) :
    s ≠ [] ∧ (toNumber (stripNonNumeric s)).isSome = true ∧
      correctResultStep (some s) = .ok () ∧ monthlyPaymentStep (some s) = .ok () := by
  have hc : IsCurrency s := (test_currencyRe s).1 ((currencyStep_ok_iff (some s)).1 h)
  obtain ⟨h1, h2, h3⟩ := numericCheck_currency hc
  exact ⟨h1, h2, by simp [correctResultStep, h3], by simp [monthlyPaymentStep, h3]⟩

theorem currency_implies_numeric_witness :
    "$1,234.56".toList ≠ [] ∧
      (toNumber (stripNonNumeric "$1,234.56".toList)).isSome = true ∧
      correctResultStep (some "$1,234.56".toList) = .ok () ∧
      monthlyPaymentStep (some "$1,234.56".toList) = .ok () :=
  currency_implies_numeric "$1,234.56".toList (by decide)

theorem callExpect_throws : callExpect = .error "TypeError: expect is not a function" := by
  decide

/-- The condition of lines 101 and 134, taken alone, is false on a text
without any digit: `N/A` is stripped to the empty text, which `Number`
converts to 0. -/
theorem numericCheck_passes_placeholder :
    stripNonNumeric "N/A".toList = [] ∧
      toNumber (stripNonNumeric "N/A".toList) = some ⟨0, 0⟩ ∧
      numericCheckFails (some "N/A".toList) = false := by
  decide

/-- C2: on the visible result text `$299.71`, whose stripped text `299.71`
converts to a number, both numeric steps throw `TypeError: expect is not a
function` at their first line; they throw it whatever the text and whether
or not the result element is visible, so they succeed on no text. -/
theorem numeric_steps_throw_typeError :
    stripNonNumeric "$299.71".toList = "299.71".toList ∧
      toNumber (stripNonNumeric "$299.71".toList) = some ⟨29971, 2⟩ ∧
      monthlyPaymentThen true (some "$299.71".toList)
        = .error "TypeError: expect is not a function" ∧
      correctResultThen true (some "$299.71".toList)
        = .error "TypeError: expect is not a function" ∧
      (∀ visible result, monthlyPaymentThen visible result
        = .error "TypeError: expect is not a function") ∧
      (∀ visible result, correctResultThen visible result
        = .error "TypeError: expect is not a function") := by
  refine ⟨by decide, by decide, by decide, by decide, ?_, ?_⟩
  · intro visible result
    simp [monthlyPaymentThen, toBeVisible, callExpect_throws, bind, Except.bind]
  · intro visible result
    simp [correctResultThen, toBeVisible, callExpect_throws, bind, Except.bind]

/-! ## The `After` hook -/

/-- C4: when navigation fails in the `Given` step, the browser it launched
is still running after the `After` hook, which returns at once because
`this.page` was never assigned; when the screenshot directory cannot be
created, the hook throws and the browser is still running as well. -/
theorem after_leaves_browser_running :
    (givenStep ⟨false, false, false, true, false, false⟩ World.initial).world.browserRunning
        = true ∧
      (runScenario ⟨false, false, false, true, false, false⟩ 1
        ⟨some "FAILED".toList, "Valid loan".toList⟩ World.initial).world.browserRunning = true ∧
      (runScenario ⟨false, false, false, false, true, false⟩ 1
        ⟨some "PASSED".toList, "Valid loan".toList⟩ World.initial).world.browserRunning = true ∧
      (runScenario ⟨false, false, false, false, true, false⟩ 1
        ⟨some "PASSED".toList, "Valid loan".toList⟩ World.initial).thrown
        = some "fs.mkdirSync" := by
  decide

/-- A failing screenshot is logged and does not stop the hook: once the page
is assigned and the directory exists or can be created, the hook does not
throw and the browser is closed. -/
theorem after_closes_browser (f : Faults) (now : Nat) (sc : Scenario) (w : World)
    (hp : w.thisPage = true) (hb : w.browserVar = true) (hm : f.mkdir = false) :
    (afterHook f now sc w).thrown = none ∧
      (afterHook f now sc w).world.browserRunning = false := by
  unfold afterHook ensureDirSync
  simp only [hp, hm, Bool.not_true, Bool.false_eq_true, if_false]
  by_cases hd : screenshotDir sc ∈ w.dirs <;>
    by_cases hs : f.screenshot = true <;> simp [hd, hs, hb]

theorem after_closes_browser_witness :
    (afterHook ⟨false, false, false, false, false, true⟩ 1
        ⟨some "FAILED".toList, "Valid loan".toList⟩
        ⟨true, true, true, [], [], []⟩).thrown = none ∧
      (afterHook ⟨false, false, false, false, false, true⟩ 1
        ⟨some "FAILED".toList, "Valid loan".toList⟩
        ⟨true, true, true, [], [], []⟩).world.browserRunning = false :=
  after_closes_browser _ 1 _ _ rfl rfl rfl

theorem screenshotDir_eq (sc : Scenario) :
    screenshotDir sc =
      if passed sc = true then "screenshots/passed".toList else "screenshots/failed".toList := by
  unfold screenshotDir
  rw [show pathJoin ["screenshots".toList, "passed".toList] = "screenshots/passed".toList
        from by decide,
    show pathJoin ["screenshots".toList, "failed".toList] = "screenshots/failed".toList
        from by decide]

theorem passed_some (status name : Str) :
    passed ⟨some status, name⟩ = true ↔ status = "PASSED".toList := by
  unfold passed
  exact beq_iff_eq

/-- C5: the directory chosen by the hook is `screenshots/passed` or
`screenshots/failed`; for a scenario with a result it is `screenshots/failed`
exactly when the status is not `PASSED` and `screenshots/passed` exactly
when the status is `PASSED`. -/
theorem screenshotDir_spec :
    (∀ sc, screenshotDir sc = "screenshots/passed".toList ∨
      screenshotDir sc = "screenshots/failed".toList) ∧
    (∀ status name, screenshotDir ⟨some status, name⟩ = "screenshots/failed".toList ↔
      status ≠ "PASSED".toList) ∧
    (∀ status name, screenshotDir ⟨some status, name⟩ = "screenshots/passed".toList ↔
      status = "PASSED".toList) := by
  have hne : "screenshots/passed".toList ≠ "screenshots/failed".toList := by decide
  refine ⟨?_, ?_, ?_⟩
  · intro sc
    rw [screenshotDir_eq]
    split_ifs
    · exact Or.inl rfl
    · exact Or.inr rfl
  · intro status name
    have hps := passed_some status name
    rw [screenshotDir_eq]
    split_ifs with h
    · exact ⟨fun e => absurd e hne, fun e => absurd (hps.1 h) e⟩
    · exact ⟨fun _ e => h (hps.2 e), fun _ => rfl⟩
  · intro status name
    have hps := passed_some status name
    rw [screenshotDir_eq]
    split_ifs with h
    · exact ⟨fun _ => hps.1 h, fun _ => rfl⟩
    · exact ⟨fun e => absurd e.symm hne, fun e => absurd (hps.2 e) h⟩

/-! ## Screenshot file names and paths -/

theorem digitChar_isDigit {d : Nat} (h : d < 10) : (Nat.digitChar d).isDigit = true := by
  interval_cases d <;> decide

theorem digitChar_value {d : Nat} (h : d < 10) : (Nat.digitChar d).toNat - 48 = d := by
  interval_cases d <;> decide

theorem toDigitsCore_isDigit (fuel : Nat) :
    ∀ (n : Nat) (acc : List Char), (∀ c ∈ acc, c.isDigit = true) →
      ∀ c ∈ Nat.toDigitsCore 10 fuel n acc, c.isDigit = true := by
  induction fuel with
  | zero => intro n acc h; simpa [Nat.toDigitsCore] using h
  | succ k ih =>
    intro n acc h
    have hacc : ∀ c ∈ Nat.digitChar (n % 10) :: acc, c.isDigit = true := by
      intro c hc
      rcases List.mem_cons.1 hc with rfl | hc
      · exact digitChar_isDigit (Nat.mod_lt _ (by decide))
      · exact h c hc
    simp only [Nat.toDigitsCore]
    split_ifs
    · exact hacc
    · exact ih _ _ hacc

theorem toDigits_isDigit (n : Nat) : ∀ c ∈ Nat.toDigits 10 n, c.isDigit = true :=
  toDigitsCore_isDigit _ _ _ (by simp)

theorem toDigitsCore_value (fuel : Nat) :
    ∀ (n : Nat) (acc : List Char), n < fuel →
      digitsToNat (Nat.toDigitsCore 10 fuel n acc)
        = acc.foldl (fun m c => 10 * m + (c.toNat - 48)) n := by
  induction fuel with
  | zero => intro n acc h; omega
  | succ k ih =>
    intro n acc h
    simp only [Nat.toDigitsCore]
    split_ifs with h0
    · have hn : n % 10 = n := Nat.mod_eq_of_lt (by omega)
      simp only [digitsToNat, List.foldl_cons, Nat.mul_zero, Nat.zero_add]
      rw [digitChar_value (Nat.mod_lt _ (by decide)), hn]
    · rw [ih (n / 10) _ (by omega)]
      simp only [List.foldl_cons]
      rw [digitChar_value (Nat.mod_lt _ (by decide))]
      congr 1
      omega

theorem digitsToNat_toDigits (n : Nat) : digitsToNat (Nat.toDigits 10 n) = n := by
  unfold Nat.toDigits
  rw [toDigitsCore_value _ _ _ (Nat.lt_succ_self n)]
  rfl

theorem replaceSpace_length (name : Str) :
    (replaceAll (fun c => c == ' ') ['_'] name).length = name.length := by
  induction name with
  | nil => rfl
  | cons c cs ih =>
    simp only [replaceAll]
    split_ifs <;> simp [ih]

theorem replaceSpace_mem {x : Char} {name : Str}
    (h : x ∈ replaceAll (fun c => c == ' ') ['_'] name) : x ≠ ' ' ∧ (x = '_' ∨ x ∈ name) := by
  induction name with
  | nil => simp [replaceAll] at h
  | cons c cs ih =>
    simp only [replaceAll] at h
    split_ifs at h with hc
    · simp only [List.singleton_append, List.mem_cons] at h
      rcases h with rfl | h
      · exact ⟨by decide, Or.inl rfl⟩
      · obtain ⟨h1, h2⟩ := ih h
        exact ⟨h1, h2.imp id (List.mem_cons_of_mem _)⟩
    · simp only [List.singleton_append, List.mem_cons] at h
      rcases h with rfl | h
      · exact ⟨by simpa using hc, Or.inr (List.mem_cons_self _ _)⟩
      · obtain ⟨h1, h2⟩ := ih h
        exact ⟨h1, h2.imp id (List.mem_cons_of_mem _)⟩

theorem replaceSpace_get (name : Str) :
    ∀ i : Nat, i < name.length →
      (replaceAll (fun c => c == ' ') ['_'] name)[i]?
        = name[i]?.map (fun c => if c = ' ' then '_' else c) := by
  induction name with
  | nil => intro i h; simp at h
  | cons c cs ih =>
    intro i h
    simp only [replaceAll]
    cases i with
    | zero =>
      by_cases hc : c = ' '
      · simp [hc]
      · simp [hc]
    | succ j =>
      have hj : j < cs.length := by simpa using h
      by_cases hc : c = ' '
      · simp [hc, ih j hj]
      · simp [hc, ih j hj]

/-- C7: the file name is the decimal digits of the time stamp, `-`, the
scenario name with every space replaced by `_` and every other character
kept, and `.png`; the part coming from the name has the length of the name
and contains no space. -/
theorem fileName_spec (now : Nat) (name : Str) :
    ∃ m : Str, fileName now name = Nat.toDigits 10 now ++ '-' :: m ++ ".png".toList ∧
      (∀ c ∈ Nat.toDigits 10 now, c.isDigit = true) ∧
      digitsToNat (Nat.toDigits 10 now) = now ∧
      m.length = name.length ∧ ' ' ∉ m ∧
      ∀ i : Nat, i < name.length →
        m[i]? = name[i]?.map (fun c => if c = ' ' then '_' else c) :=
  ⟨replaceAll (fun c => c == ' ') ['_'] name, rfl, toDigits_isDigit now,
    digitsToNat_toDigits now, replaceSpace_length name,
    fun h => (replaceSpace_mem h).1 rfl, replaceSpace_get name⟩

theorem splitSlash_ne_nil (s : Str) : splitSlash s ≠ [] := by
  induction s with
  | nil => simp [splitSlash]
  | cons c cs ih =>
    simp only [splitSlash]
    split_ifs
    · simp
    · split <;> simp

theorem splitSlash_append (a b : Str) :
    splitSlash (a ++ '/' :: b) = splitSlash a ++ splitSlash b := by
  induction a with
  | nil => simp [splitSlash]
  | cons c cs ih =>
    simp only [List.cons_append, splitSlash]
    split_ifs with hc
    · simp [ih]
    · have ih2 : splitSlash (cs.append ('/' :: b)) = splitSlash cs ++ splitSlash b := ih
      rw [ih2]
      cases hs : splitSlash cs with
      | nil => exact absurd hs (splitSlash_ne_nil cs)
      | cons seg segs => simp

theorem splitSlash_of_not_mem {f : Str} (h : '/' ∉ f) : splitSlash f = [f] := by
  induction f with
  | nil => rfl
  | cons c cs ih =>
    have hc : c ≠ '/' := fun e => h (e ▸ List.mem_cons_self _ _)
    have hcs : '/' ∉ cs := fun e => h (List.mem_cons_of_mem _ e)
    simp [splitSlash, hc, ih hcs]

theorem fileName_not_mem_slash {now : Nat} {name : Str} (h : '/' ∉ name) :
    '/' ∉ fileName now name := by
  intro hm
  simp only [fileName, List.mem_append, List.mem_cons] at hm
  rcases hm with (hm | hm | hm) | hm
  · exact absurd (toDigits_isDigit now _ hm) (by decide)
  · exact absurd hm (by decide)
  · rcases (replaceSpace_mem hm).2 with e | e
    · exact absurd e (by decide)
    · exact h e
  · exact absurd hm (by decide)

theorem fileName_length (now : Nat) (name : Str) : 5 ≤ (fileName now name).length := by
  simp [fileName]
  omega

theorem fileName_getLast (now : Nat) (name : Str) :
    (fileName now name).getLast? = some 'g' := by
  have : fileName now name
      = (Nat.toDigits 10 now ++ '-' :: replaceAll (fun c => c == ' ') ['_'] name
          ++ ['.', 'p', 'n']) ++ ['g'] := by
    simp [fileName]
  rw [this, List.getLast?_append]
  rfl

theorem normalizeStep_ordinary (al : Bool) (stack : List Str) {f : Str} (h : 3 ≤ f.length) :
    normalizeStep al stack f = f :: stack := by
  have h0 : f ≠ [] := by intro e; rw [e] at h; simp at h
  have h1 : f ≠ ['.'] := by intro e; rw [e] at h; simp at h
  have h2 : f ≠ ['.', '.'] := by intro e; rw [e] at h; simp at h
  simp [normalizeStep, h0, h1, h2]

theorem pathJoin_under (dir a b f : Str) (hsplit : splitSlash dir = [a, b])
    (hdir : dir = a ++ '/' :: b) (ha : 3 ≤ a.length) (hb : 3 ≤ b.length)
    (hhead : a.head? ≠ some '/') (hslash : '/' ∉ f) (hlen : 3 ≤ f.length)
    (hlast : f.getLast? ≠ some '/') :
    pathJoin [dir, f] = dir ++ '/' :: f := by
  have hf0 : f ≠ [] := by intro e; rw [e] at hlen; simp at hlen
  have ha0 : a ≠ [] := by intro e; rw [e] at ha; simp at ha
  have hd0 : dir ≠ [] := by rw [hdir]; simp
  have hfilter : [dir, f].filter (fun x => !x.isEmpty) = [dir, f] := by
    cases dir with
    | nil => exact absurd rfl hd0
    | cons x xs =>
      cases f with
      | nil => exact absurd rfl hf0
      | cons y ys => simp
  have hpath : joinSlash [dir, f] = dir ++ '/' :: f := by simp [joinSlash]
  have hne : dir ++ '/' :: f ≠ [] := by simp
  have hhead2 : (dir ++ '/' :: f).head? ≠ some '/' := by
    rw [hdir]
    cases a with
    | nil => exact absurd rfl ha0
    | cons x xs => simpa using hhead
  have hlast2 : (dir ++ '/' :: f).getLast? ≠ some '/' := by
    cases f with
    | nil => exact absurd rfl hf0
    | cons y ys =>
      have : dir ++ '/' :: y :: ys = (dir ++ ['/']) ++ (y :: ys) := by simp
      rw [this, List.getLast?_append_of_ne_nil _ (by simp)]
      exact hlast
  have hsegs : splitSlash (dir ++ '/' :: f) = [a, b, f] := by
    rw [splitSlash_append, hsplit, splitSlash_of_not_mem hslash]
    rfl
  have hfold : ((splitSlash (dir ++ '/' :: f)).foldl (normalizeStep true) []).reverse
      = [a, b, f] := by
    rw [hsegs]
    simp only [List.foldl_cons, List.foldl_nil]
    rw [normalizeStep_ordinary true [] ha, normalizeStep_ordinary true [a] hb,
      normalizeStep_ordinary true [b, a] hlen]
    rfl
  have hbody : joinSlash [a, b, f] = dir ++ '/' :: f := by
    rw [hdir]
    simp [joinSlash]
  unfold pathJoin
  rw [hfilter]
  simp only
  rw [hpath]
  unfold normalize
  rw [if_neg hne]
  simp only [hhead2, hlast2, decide_False, Bool.not_false, if_false]
  rw [hfold, hbody, if_neg hne]
  simp

theorem screenshotPath_plain (now : Nat) (sc : Scenario) (h : '/' ∉ sc.name) :
    screenshotPath now sc = screenshotDir sc ++ '/' :: fileName now sc.name := by
  have hlen : 3 ≤ (fileName now sc.name).length := by
    have := fileName_length now sc.name
    omega
  have hlast : (fileName now sc.name).getLast? ≠ some '/' := by
    rw [fileName_getLast]
    decide
  unfold screenshotPath
  rw [screenshotDir_eq]
  split_ifs
  · exact pathJoin_under _ "screenshots".toList "passed".toList _
      (by decide) (by decide) (by decide) (by decide) (by decide)
      (fileName_not_mem_slash h) hlen hlast
  · exact pathJoin_under _ "screenshots".toList "failed".toList _
      (by decide) (by decide) (by decide) (by decide) (by decide)
      (fileName_not_mem_slash h) hlen hlast

theorem parentDir_under (dir a b f : Str) (hsplit : splitSlash dir = [a, b])
    (hdir : dir = a ++ '/' :: b) (hslash : '/' ∉ f) :
    parentDir (dir ++ '/' :: f) = dir := by
  unfold parentDir
  rw [splitSlash_append, hsplit, splitSlash_of_not_mem hslash, hdir]
  simp [joinSlash]

/-- C6, as stated, fails: for the scenario name `a/b` the screenshot path is
`screenshots/passed/1-a/b.png`, whose parent directory is not the
classification directory, and for the name `x/../../../y` the path is
`y.png`, outside `screenshots` altogether. -/
theorem screenshotPath_leaves_dir :
    screenshotPath 1 ⟨some "PASSED".toList, "a/b".toList⟩
        = "screenshots/passed/1-a/b.png".toList ∧
      parentDir (screenshotPath 1 ⟨some "PASSED".toList, "a/b".toList⟩)
        ≠ screenshotDir ⟨some "PASSED".toList, "a/b".toList⟩ ∧
      screenshotPath 1 ⟨some "PASSED".toList, "x/../../../y".toList⟩ = "y.png".toList := by
  decide

/-- C6, amended: for a scenario name without `/`, the screenshot path is the
classification directory, `/`, and the file name; the file name contains no
`/`, so the parent directory of the path is the classification directory,
which is `screenshots/passed` or `screenshots/failed`. -/
theorem screenshotPath_inside_dir (now : Nat) (sc : Scenario) (h : '/' ∉ sc.name) :
    screenshotPath now sc = screenshotDir sc ++ '/' :: fileName now sc.name ∧
      '/' ∉ fileName now sc.name ∧
      parentDir (screenshotPath now sc) = screenshotDir sc ∧
      (screenshotDir sc = "screenshots/passed".toList ∨
        screenshotDir sc = "screenshots/failed".toList) := by
  refine ⟨screenshotPath_plain now sc h, fileName_not_mem_slash h, ?_, ?_⟩
  · rw [screenshotPath_plain now sc h, screenshotDir_eq]
    split_ifs
    · exact parentDir_under _ "screenshots".toList "passed".toList _
        (by decide) (by decide) (fileName_not_mem_slash h)
    · exact parentDir_under _ "screenshots".toList "failed".toList _
        (by decide) (by decide) (fileName_not_mem_slash h)
  · rw [screenshotDir_eq]
    split_ifs
    · exact Or.inl rfl
    · exact Or.inr rfl

theorem screenshotPath_inside_dir_witness :
    screenshotPath 1730000000000 ⟨some "FAILED".toList, "Invalid loan amount".toList⟩
        = screenshotDir ⟨some "FAILED".toList, "Invalid loan amount".toList⟩
          ++ '/' :: fileName 1730000000000 "Invalid loan amount".toList ∧
      '/' ∉ fileName 1730000000000 "Invalid loan amount".toList ∧
      parentDir (screenshotPath 1730000000000
          ⟨some "FAILED".toList, "Invalid loan amount".toList⟩)
        = screenshotDir ⟨some "FAILED".toList, "Invalid loan amount".toList⟩ ∧
      (screenshotDir ⟨some "FAILED".toList, "Invalid loan amount".toList⟩
          = "screenshots/passed".toList ∨
        screenshotDir ⟨some "FAILED".toList, "Invalid loan amount".toList⟩
          = "screenshots/failed".toList) :=
  screenshotPath_inside_dir 1730000000000
    ⟨some "FAILED".toList, "Invalid loan amount".toList⟩ (by decide)

/-! ## The click step -/

theorem readQuoted_plain {label : Str} (h : PlainLabel label) (r : Str) :
    readQuoted (label ++ dquote :: r) = some (label, r) := by
  induction label with
  | nil => simp [readQuoted]
  | cons c cs ih =>
    obtain ⟨h1, h2, h3, h4, h5⟩ := h c (List.mem_cons_self _ _)
    have hcs : PlainLabel cs := fun x hx => h x (List.mem_cons_of_mem _ hx)
    simp only [List.cons_append, readQuoted]
    have ih2 : readQuoted (cs.append (dquote :: r)) = some (cs, r) := ih hcs
    rw [if_neg h1, if_neg (by simp [h2, h3, h4, h5]), ih2]
    rfl

theorem takeWhile_append_all (p : Char → Bool) (d : Str) (h : ∀ c ∈ d, p c = true) (r : Str) :
    (d ++ r).takeWhile p = d ++ r.takeWhile p ∧ (d ++ r).dropWhile p = r.dropWhile p := by
  induction d with
  | nil => simp
  | cons x xs ih =>
    have hx := h x (List.mem_cons_self _ _)
    obtain ⟨h1, h2⟩ := ih (fun c hc => h c (List.mem_cons_of_mem _ hc))
    simp [List.takeWhile, List.dropWhile, hx, h1, h2]

theorem parseHasText_plain {label : Str} (h : PlainLabel label) :
    parseHasText (clickSelector label) = some ⟨"button".toList, label⟩ := by
  have hsel : clickSelector label
      = "button".toList ++ ((":has-text(".toList ++ [dquote]) ++ (label ++ [dquote, ')'])) := by
    simp [clickSelector]
  have htw := takeWhile_append_all isTagChar "button".toList (by decide)
    ((":has-text(".toList ++ [dquote]) ++ (label ++ [dquote, ')']))
  have hcolon : (":has-text(".toList ++ [dquote]) ++ (label ++ [dquote, ')'])
      = ':' :: ("has-text(".toList ++ [dquote] ++ (label ++ [dquote, ')'])) := by
    simp
  have h1 : ((":has-text(".toList ++ [dquote]) ++ (label ++ [dquote, ')'])).takeWhile isTagChar
      = [] := by
    rw [hcolon]
    simp [List.takeWhile, show isTagChar ':' = false by decide]
  have h2 : ((":has-text(".toList ++ [dquote]) ++ (label ++ [dquote, ')'])).dropWhile isTagChar
      = (":has-text(".toList ++ [dquote]) ++ (label ++ [dquote, ')']) := by
    rw [hcolon]
    simp [List.dropWhile, show isTagChar ':' = false by decide]
  rw [h1, h2, List.append_nil] at htw
  unfold parseHasText
  simp only [hsel, htw.1, htw.2]
  rw [if_pos (List.isPrefixOf_iff_prefix.2 (List.prefix_append _ _)), List.drop_left,
    readQuoted_plain h]
  rfl

theorem includes_iff (hay needle : Str) :
    includes hay needle = true ↔ ∃ before after : Str, hay = before ++ needle ++ after := by
  unfold includes
  rw [List.any_eq_true]
  constructor
  · rintro ⟨t, ht, hp⟩
    obtain ⟨before, hb⟩ := (List.mem_tails t hay).1 ht
    obtain ⟨after, ha⟩ := List.isPrefixOf_iff_prefix.1 hp
    exact ⟨before, after, by rw [← hb, ← ha, List.append_assoc]⟩
  · rintro ⟨before, after, rfl⟩
    refine ⟨needle ++ after, (List.mem_tails _ _).2 ⟨before, by rw [List.append_assoc]⟩, ?_⟩
    exact List.isPrefixOf_iff_prefix.2 (List.prefix_append _ _)

theorem matchesSelector_button (label : Str) (e : Element) :
    matchesSelector ⟨"button".toList, label⟩ e = true ↔ ButtonContaining label e := by
  unfold matchesSelector hasText ButtonContaining
  rw [Bool.and_eq_true, beq_iff_eq, includes_iff]

theorem isWhiteSpace_toLower (c : Char) : isWhiteSpace c.toLower = isWhiteSpace c := by
  unfold Char.toLower
  simp only
  split_ifs with hc
  · have hcn : Char.ofNat c.toNat = c := Char.ofNat_toNat c
    generalize c.toNat = n at hc hcn
    subst hcn
    obtain ⟨h1, h2⟩ := hc
    interval_cases n <;> decide
  · rfl

theorem collapseSpaces_toLowerCase (s : Str) :
    ∀ pending : Bool,
      toLowerCase (collapseSpaces pending s) = collapseSpaces pending (toLowerCase s) := by
  have hsp : Char.toLower ' ' = ' ' := by decide
  induction s with
  | nil => intro pending; rfl
  | cons c cs ih =>
    intro pending
    have ih1 := ih true
    have ih2 := ih false
    simp only [toLowerCase] at ih1 ih2 ⊢
    simp only [List.map_cons, collapseSpaces, isWhiteSpace_toLower]
    cases hws : isWhiteSpace c with
    | true => simpa using ih1
    | false => cases pending <;> simp [ih2, hsp]

theorem dropWhile_toLowerCase (s : Str) :
    toLowerCase (s.dropWhile isWhiteSpace) = (toLowerCase s).dropWhile isWhiteSpace := by
  induction s with
  | nil => rfl
  | cons c cs ih =>
    simp only [toLowerCase] at ih ⊢
    simp only [List.map_cons, List.dropWhile_cons, isWhiteSpace_toLower]
    cases hws : isWhiteSpace c with
    | true => simpa using ih
    | false => simp

theorem normalizeWhiteSpace_toLowerCase (s : Str) :
    toLowerCase (normalizeWhiteSpace s) = normalizeWhiteSpace (toLowerCase s) := by
  unfold normalizeWhiteSpace
  rw [collapseSpaces_toLowerCase, dropWhile_toLowerCase]

theorem clickStep_clicked_iff (page : List Element) {label : Str}
    (h : PlainLabel label) (e : Element) :
    clickStep page label = .clicked e ↔
      page.find? (matchesSelector ⟨"button".toList, label⟩) = some e ∧
        e.actionable = true := by
  unfold clickStep
  rw [parseHasText_plain h]
  simp only
  cases hf : page.find? (matchesSelector ⟨"button".toList, label⟩) with
  | none => simp
  | some x =>
    simp only [Option.some.injEq]
    by_cases hx : x.actionable = true
    · rw [if_pos hx]
      constructor
      · intro he
        injection he with he
        subst he
        exact ⟨rfl, hx⟩
      · rintro ⟨rfl, _⟩
        rfl
    · rw [if_neg hx]
      constructor
      · intro he; cases he
      · rintro ⟨rfl, h2⟩
        exact absurd h2 hx

/-- C8, as stated, fails: with the label `Calculate`, on a page holding the
buttons `Recalculate` and `Calculate` in this order, the step clicks
`Recalculate`, whose text is not the label; and for the label made of one
double quote the selector text is not of the form `button:has-text("…")`. -/
theorem clickStep_not_exact :
    clickStep
        [⟨"button".toList, "Recalculate".toList, true⟩,
          ⟨"button".toList, "Calculate".toList, true⟩] "Calculate".toList
        = .clicked ⟨"button".toList, "Recalculate".toList, true⟩ ∧
      "Recalculate".toList ≠ "Calculate".toList ∧
      parseHasText (clickSelector [dquote]) = none := by
  decide

theorem normalizeText_of_lower {a b : Str} (h : toLowerCase a = toLowerCase b) :
    normalizeText a = normalizeText b := by
  unfold normalizeText
  rw [normalizeWhiteSpace_toLowerCase, normalizeWhiteSpace_toLowerCase, h]

theorem normalizeText_of_space {a b : Str}
    (h : normalizeWhiteSpace a = normalizeWhiteSpace b) : normalizeText a = normalizeText b := by
  unfold normalizeText
  rw [h]

theorem clickStep_congr (page : List Element) {label other : Str} (h : PlainLabel label)
    (ho : PlainLabel other) (hn : normalizeText other = normalizeText label) :
    clickStep page other = clickStep page label := by
  have hm : matchesSelector ⟨"button".toList, other⟩
      = matchesSelector ⟨"button".toList, label⟩ := by
    funext x
    simp only [matchesSelector, hasText, hn]
  unfold clickStep
  rw [parseHasText_plain h, parseHasText_plain ho]
  simp only [hm]

theorem buttonContaining_congr (label : Str) {x y : Element} (ht : x.tag = y.tag)
    (hn : normalizeText x.text = normalizeText y.text) :
    ButtonContaining label x ↔ ButtonContaining label y := by
  unfold ButtonContaining
  rw [ht, hn]

/-- C8, amended: for an ASCII label without double quote, backslash or line
break, on a page of ASCII texts, the selector reads back as
`button:has-text` with the label as its argument, and the step clicks the
element `e` exactly when `e` is actionable and is the first element of the
page that is a `button` whose text, with white space trimmed and collapsed
and letters in lower case, contains the label treated the same way.  The
text need not be equal to the label: labels that differ only in letter case
or only in white space click the same element, and element texts that
differ only in letter case or only in white space are matched alike. -/
theorem clickStep_plain_label (page : List Element) (label : Str)
    (h : PlainLabel label) (_hl : IsAscii label) (_hp : ∀ x ∈ page, IsAscii x.text) :
    parseHasText (clickSelector label) = some ⟨"button".toList, label⟩ ∧
      (∀ e, clickStep page label = .clicked e ↔
        e.actionable = true ∧
          ∃ before after : List Element, page = before ++ e :: after ∧
            ButtonContaining label e ∧ ∀ x ∈ before, ¬ ButtonContaining label x) ∧
      (∀ other : Str, PlainLabel other →
        (toLowerCase other = toLowerCase label ∨
          normalizeWhiteSpace other = normalizeWhiteSpace label) →
        clickStep page other = clickStep page label) ∧
      (∀ x y : Element, x.tag = y.tag →
        (toLowerCase x.text = toLowerCase y.text ∨
          normalizeWhiteSpace x.text = normalizeWhiteSpace y.text) →
        (ButtonContaining label x ↔ ButtonContaining label y)) := by
  refine ⟨parseHasText_plain h, ?_, ?_, ?_⟩
  · intro e
    rw [clickStep_clicked_iff page h, List.find?_eq_some, matchesSelector_button]
    constructor
    · rintro ⟨⟨hb, before, after, hpage, hfirst⟩, ha⟩
      refine ⟨ha, before, after, hpage, hb, ?_⟩
      intro x hx hc
      have := hfirst x hx
      rw [(matchesSelector_button label x).2 hc] at this
      simp at this
    · rintro ⟨ha, before, after, hpage, hb, hfirst⟩
      refine ⟨⟨hb, before, after, hpage, ?_⟩, ha⟩
      intro x hx
      cases hm : matchesSelector ⟨"button".toList, label⟩ x with
      | false => rfl
      | true => exact absurd ((matchesSelector_button label x).1 hm) (hfirst x hx)
  · rintro other ho (hn | hn)
    · exact clickStep_congr page h ho (normalizeText_of_lower hn)
    · exact clickStep_congr page h ho (normalizeText_of_space hn)
  · rintro x y ht (hn | hn)
    · exact buttonContaining_congr label ht (normalizeText_of_lower hn)
    · exact buttonContaining_congr label ht (normalizeText_of_space hn)

theorem clickStep_plain_label_witness :
    parseHasText (clickSelector "Calculate".toList)
        = some ⟨"button".toList, "Calculate".toList⟩ ∧
      (∀ e, clickStep
          [⟨"a".toList, "Calculate".toList, true⟩,
            ⟨"button".toList, "  CALCULATE   now ".toList, true⟩]
          "Calculate".toList = .clicked e ↔
        e.actionable = true ∧
          ∃ before after : List Element,
            [⟨"a".toList, "Calculate".toList, true⟩,
              ⟨"button".toList, "  CALCULATE   now ".toList, true⟩] = before ++ e :: after ∧
            ButtonContaining "Calculate".toList e ∧
            ∀ x ∈ before, ¬ ButtonContaining "Calculate".toList x) ∧
      (∀ other : Str, PlainLabel other →
        (toLowerCase other = toLowerCase "Calculate".toList ∨
          normalizeWhiteSpace other = normalizeWhiteSpace "Calculate".toList) →
        clickStep
            [⟨"a".toList, "Calculate".toList, true⟩,
              ⟨"button".toList, "  CALCULATE   now ".toList, true⟩] other
          = clickStep
            [⟨"a".toList, "Calculate".toList, true⟩,
              ⟨"button".toList, "  CALCULATE   now ".toList, true⟩] "Calculate".toList) ∧
      (∀ x y : Element, x.tag = y.tag →
        (toLowerCase x.text = toLowerCase y.text ∨
          normalizeWhiteSpace x.text = normalizeWhiteSpace y.text) →
        (ButtonContaining "Calculate".toList x ↔ ButtonContaining "Calculate".toList y)) :=
  clickStep_plain_label
    [⟨"a".toList, "Calculate".toList, true⟩,
      ⟨"button".toList, "  CALCULATE   now ".toList, true⟩]
    "Calculate".toList (by unfold PlainLabel; decide) (by unfold IsAscii; decide)
    (by unfold IsAscii; decide)

/-! ## The cleared-fields step -/

/-- C9: on a page on which nothing was entered, where the three fields are
empty, the cleared-fields step throws `TypeError: expect is not a function`
at its first line; it throws it on every page. -/
theorem allFieldsCleared_throws_typeError :
    Fields.fresh "#loanAmount".toList = [] ∧
      Fields.fresh "#interestRate".toList = [] ∧
      Fields.fresh "#term".toList = [] ∧
      allFieldsClearedStep Fields.fresh = .error "TypeError: expect is not a function" ∧
      (∀ p : Fields, allFieldsClearedStep p
        = .error "TypeError: expect is not a function") := by
  refine ⟨rfl, rfl, rfl, ?_, ?_⟩
  · simp [allFieldsClearedStep, toHaveValue, callExpect_throws, bind, Except.bind]
  · intro p
    simp [allFieldsClearedStep, toHaveValue, callExpect_throws, bind, Except.bind]

end Experian
